import Mathlib

/-!
Verification development for the loop asset generator
`src/public/audio/loops/generate-loops.py` (repository `the-hold`).

The Python program builds floating-point sample buffers with numpy, shapes
them with fades and envelopes, mixes and normalizes them, and serializes the
result as 16-bit little-endian PCM.  We embed the buffer operations shallowly:

* a numpy 1-d array of samples becomes a `List ℚ` (exact arithmetic stands in
  for IEEE doubles; every claim settled here is about structure, lengths,
  index selection, truncation and wrap-around, not about float rounding);
* a numpy operation that raises (shape mismatch when broadcasting, negative
  counts for `np.linspace`, reduction of an empty array) is modelled by an
  `Option` result, `none` standing for the raised exception;
* `np.sin` only ever occurs through `sin(2*pi*freq*t)` (and the arcsin
  transform for the triangle wave), so the transcendental oscillator is a
  parameter `osc : ℚ → ℚ → ℚ` mapping frequency and time to the sampled
  value; no claim below depends on its actual values;
* the unseeded `np.random` calls of the texture generator are modelled by an
  explicit stream `draws : ℕ → ℚ` giving the raw result of the k-th
  `np.random.uniform(0, 1)` draw, with `uniform(a, b)` = `a + u * (b - a)`.
-/

/-- Python `int(q)` on a real quantity: truncation toward zero. -/
def pyTrunc (q : ℚ) : ℤ :=
  if 0 ≤ q then ⌊q⌋ else ⌈q⌉

/-- Sample value at index `k`, with numpy out-of-range reads irrelevant to the
claims modelled by the default `0`. -/
def nth (l : List ℚ) (k : ℕ) : ℚ :=
  l.getD k 0

/-- `np.linspace(a, b, n)` with the default `endpoint=True`:
`n` evenly spaced values from `a` to `b` inclusive. -/
def linspace (a b : ℚ) (n : ℕ) : List ℚ :=
  if n = 1 then [a]
  else (List.range n).map fun k : ℕ => a + (k : ℚ) * (b - a) / ((n : ℚ) - 1)

/-- `np.linspace(a, b, n, False)` (`endpoint=False`, used for the time grids):
`n` values `a + k * (b - a) / n` for `k < n`, the endpoint excluded. -/
def linspaceHalf (a b : ℚ) (n : ℕ) : List ℚ :=
  (List.range n).map fun k : ℕ => a + (k : ℚ) * (b - a) / (n : ℚ)

-- Audio settings of the source file.

/-- `SAMPLE_RATE = 48000`. -/
def SAMPLE_RATE : ℕ := 48000

/-- `MAX_AMP = 32767`. -/
def MAX_AMP : ℚ := 32767

/-- `w[:k] *= v` on a numpy array: elementwise product over the slice
`w[:k]` (`k ≥ 0`), the rest of `w` unchanged.  The value must broadcast to
the slice: equal length, or length 1; otherwise numpy raises. -/
def mulFront (w : List ℚ) (k : ℕ) (v : List ℚ) : Option (List ℚ) :=
  let s := w.take k
  if v.length = s.length then some (s.zipWith (· * ·) v ++ w.drop k)
  else if v.length = 1 then some ((s.map fun x => x * v.headD 0) ++ w.drop k)
  else none

/-- `w[-k:] *= v` on a numpy array with the literal Python index `-k` for a
nonnegative `k`: for `k = 0` the slice `w[0:]` is the whole array, for
`k > 0` it is the last `min k (length w)` elements. -/
def mulBack (w : List ℚ) (k : ℕ) (v : List ℚ) : Option (List ℚ) :=
  let d := if k = 0 then 0 else w.length - k
  let s := w.drop d
  if v.length = s.length then some (w.take d ++ s.zipWith (· * ·) v)
  else if v.length = 1 then some (w.take d ++ s.map fun x => x * v.headD 0)
  else none

/-- `w[:k] = v` on a numpy array: overwrite the slice `w[:k]`, same
broadcasting rule as `mulFront`. -/
def setFront (w : List ℚ) (k : ℕ) (v : List ℚ) : Option (List ℚ) :=
  let s := w.take k
  if v.length = s.length then some (v ++ w.drop k)
  else if v.length = 1 then some ((s.map fun _ => v.headD 0) ++ w.drop k)
  else none

/-- `w[-k:] = v` on a numpy array, same index convention as `mulBack`. -/
def setBack (w : List ℚ) (k : ℕ) (v : List ℚ) : Option (List ℚ) :=
  let d := if k = 0 then 0 else w.length - k
  let s := w.drop d
  if v.length = s.length then some (w.take d ++ v)
  else if v.length = 1 then some (w.take d ++ s.map fun _ => v.headD 0)
  else none

/-- A fresh numpy binary elementwise operation `f` on two 1-d arrays:
defined when the shapes broadcast (equal lengths, or one operand of
length 1); otherwise numpy raises. -/
def npBin (f : ℚ → ℚ → ℚ) (a b : List ℚ) : Option (List ℚ) :=
  if a.length = b.length then some (a.zipWith f b)
  else if a.length = 1 then some (b.map fun y => f (a.headD 0) y)
  else if b.length = 1 then some (a.map fun x => f x (b.headD 0))
  else none

/-- `t += v` on a numpy array `t`: the value must broadcast to the fixed
shape of the target. -/
def addInto (t v : List ℚ) : Option (List ℚ) :=
  if v.length = t.length then some (t.zipWith (· + ·) v)
  else if v.length = 1 then some (t.map fun x => x + v.headD 0)
  else none

/-- `breath_shape[mask] = vals`: numpy boolean-mask assignment, writing the
successive entries of `vals` at the successive `true` positions. -/
def maskAssign : List ℚ → List Bool → List ℚ → List ℚ
  | [], _, _ => []
  | xs, [], _ => xs
  | x :: xs, b :: bs, vs =>
    if b then vs.headD x :: maskAssign xs bs vs.tail
    else x :: maskAssign xs bs vs

/-- `np.sum(mask)` for a boolean mask: the number of `true` entries. -/
def countTrue (bs : List Bool) : ℕ :=
  bs.count true

/-- Sequential `Option`-valued map, used for the per-tone loop of the
texture generator. -/
def optTraverse (f : α → Option β) : List α → Option (List β)
  | [] => some []
  | x :: xs =>
    match f x, optTraverse f xs with
    | some y, some ys => some (y :: ys)
    | _, _ => none

/-- `generate_sine_wave(freq, duration, sample_rate)`:
`t = np.linspace(0, duration, int(sample_rate * duration), False)` and the
samples `sin(2*pi*freq*t)`; the map `(freq, t) ↦ sin(2*pi*freq*t)` is the
abstract oscillator `osc`.  `np.linspace` raises on a negative count. -/
def generate_sine_wave (osc : ℚ → ℚ → ℚ) (freq duration : ℚ)
    (sample_rate : ℕ) : Option (List ℚ) :=
  let n := pyTrunc ((sample_rate : ℚ) * duration)
  if n < 0 then none
  else some ((linspaceHalf 0 duration n.toNat).map (osc freq))

/-- `generate_triangle_wave(freq, duration, sample_rate)`: same time grid,
samples `2 * arcsin(sin(2*pi*freq*t)) / pi` abstracted as the oscillator
`tri`. -/
def generate_triangle_wave (tri : ℚ → ℚ → ℚ) (freq duration : ℚ)
    (sample_rate : ℕ) : Option (List ℚ) :=
  let n := pyTrunc ((sample_rate : ℚ) * duration)
  if n < 0 then none
  else some ((linspaceHalf 0 duration n.toNat).map (tri freq))

/-- `apply_fade(waveform, fade_duration, sample_rate)`:
`fade_samples = int(fade_duration * sample_rate)`, then
`waveform[:fade_samples] *= np.linspace(0, 1, fade_samples)` and
`waveform[-fade_samples:] *= np.linspace(1, 0, fade_samples)`.
A negative `fade_samples` makes `np.linspace` raise. -/
def apply_fade (w : List ℚ) (fade_duration : ℚ) (sample_rate : ℕ) :
    Option (List ℚ) :=
  let fs := pyTrunc (fade_duration * (sample_rate : ℚ))
  if fs < 0 then none
  else do
    let w1 ← mulFront w fs.toNat (linspace 0 1 fs.toNat)
    mulBack w1 fs.toNat (linspace 1 0 fs.toNat)

/-- The caller's buffer after `apply_fade` returns: the source mutates the
argument in place (`waveform[:fade_samples] *= fade_in` and
`waveform[-fade_samples:] *= fade_out` are slice assignments on the caller's
array), so on success the argument holds exactly the returned samples. -/
def apply_fade_post (w : List ℚ) (fade_duration : ℚ) (sample_rate : ℕ) :
    Option (List ℚ) :=
  apply_fade w fade_duration sample_rate

/-- `apply_envelope(waveform, attack, release, sample_rate)`:
build `envelope = np.ones_like(waveform)`, overwrite its first
`attack_samples` entries with `np.linspace(0, 1, attack_samples)` when
`attack_samples > 0`, overwrite its last `release_samples` entries with
`np.linspace(1, 0, release_samples)` when `release_samples > 0`, and return
the fresh array `waveform * envelope`. -/
def apply_envelope (w : List ℚ) (attack release : ℚ) (sample_rate : ℕ) :
    Option (List ℚ) := do
  let attack_samples := pyTrunc (attack * (sample_rate : ℚ))
  let release_samples := pyTrunc (release * (sample_rate : ℚ))
  let e0 := List.replicate w.length (1 : ℚ)
  let e1 ←
    if 0 < attack_samples then
      setFront e0 attack_samples.toNat (linspace 0 1 attack_samples.toNat)
    else pure e0
  let e2 ←
    if 0 < release_samples then
      setBack e1 release_samples.toNat (linspace 1 0 release_samples.toNat)
    else pure e1
  npBin (· * ·) w e2

/-- The caller's buffer after `apply_envelope` returns: the source never
writes through `waveform` (`waveform * envelope` allocates a fresh array and
only `envelope`, a local, is sliced into), so the argument is unchanged. -/
def apply_envelope_post (w : List ℚ) (attack release : ℚ)
    (sample_rate : ℕ) : List ℚ :=
  let _ := attack
  let _ := release
  let _ := sample_rate
  w

/-- `mix_waveforms(waveforms, gains=None)`: with `gains` omitted, every
voice gets weight `1.0 / len(waveforms)`; starting from
`np.zeros_like(waveforms[0])` the loop performs `mixed += wave * gain` over
`zip(waveforms, gains)`.  An empty `waveforms` raises (`waveforms[0]`
out of range, or division by `len(waveforms) = 0`). -/
def mix_waveforms (ws : List (List ℚ)) (gains : Option (List ℚ)) :
    Option (List ℚ) :=
  match ws with
  | [] => none
  | w0 :: _ =>
    let gs := gains.getD (List.replicate ws.length ((1 : ℚ) / (ws.length : ℚ)))
    (ws.zip gs).foldlM (fun acc p => addInto acc (p.1.map fun x => x * p.2))
      (List.replicate w0.length (0 : ℚ))

/-- `normalize_audio(waveform, headroom)`: `peak = np.max(np.abs(waveform))`
(raising on an empty array), and when `peak > 0` the buffer is rescaled to
`waveform / peak * headroom`, otherwise returned unchanged. -/
def normalize_audio (w : List ℚ) (headroom : ℚ) : Option (List ℚ) :=
  match (w.map fun x => |x|).max? with
  | none => none
  | some peak =>
    if 0 < peak then some (w.map fun x => x / peak * headroom)
    else some w

/-- The 16-bit wrap-around of `astype(np.int16)`: reduce modulo `2^16` into
`[-32768, 32767]`. -/
def wrap16 (n : ℤ) : ℤ :=
  (n + 32768) % 65536 - 32768

/-- One sample of `(waveform * MAX_AMP).astype(np.int16)` from `save_wav`:
scale by `32767`, truncate toward zero, wrap to 16 bits. -/
def toInt16 (x : ℚ) : ℤ :=
  wrap16 (pyTrunc (x * MAX_AMP))

/-- The int16 sample vector `save_wav` serializes. -/
def save_wav_samples (w : List ℚ) : List ℤ :=
  w.map toInt16

/-- Little-endian byte pair of one int16 sample, as `tobytes` emits it. -/
def int16le (n : ℤ) : List ℕ :=
  [((n % 65536).toNat) % 256, ((n % 65536).toNat) / 256]

/-- The data-chunk bytes written by `save_wav`: each int16 sample in
little-endian order. -/
def save_wav_bytes (w : List ℚ) : List ℕ :=
  (save_wav_samples w).flatMap int16le

/-- A standard 16-bit PCM decoder for the data chunk: consume the bytes in
little-endian pairs, reading each pair as a signed 16-bit integer. -/
def decode_pcm16 : List ℕ → List ℤ
  | b0 :: b1 :: rest => wrap16 ((b0 : ℤ) + 256 * (b1 : ℤ)) :: decode_pcm16 rest
  | _ => []

/-- Modelled from the spec: the per-sample conversion the round-trip claim
asserts for the PCM serializer — `round(x * 32767)` clipped to the signed
16-bit range `[-32768, 32767]`.  (The source instead truncates and wraps;
this definition exists only to be compared against `toInt16`.) -/
def specRoundClip (x : ℚ) : ℤ :=
  max (-32768) (min 32767 (round (x * MAX_AMP)))

/-- One tone of `generate_texture_loop`: the body of the per-tone loop.
Tone `i` performs four `np.random.uniform` draws in order — `freq` in
`[200, 800)`, `tone_duration` in `[1, 3)`, `tone_start` in
`[0, duration - tone_duration)`, and the simulated pan in `[0.5, 1)` —
so it consumes raw draws `4*i` through `4*i + 3`.  `tone_duration` and
`tone_start` are computed but never used: the tone is the full-duration
sine, enveloped and scaled by the pan factor. -/
def texture_tone (osc : ℚ → ℚ → ℚ) (draws : ℕ → ℚ) (duration : ℚ)
    (i : ℕ) : Option (List ℚ) :=
  let freq := 200 + draws (4 * i) * (800 - 200)
  let tone_duration := 1 + draws (4 * i + 1) * (3 - 1)
  let tone_start := 0 + draws (4 * i + 2) * (duration - tone_duration - 0)
  let _ := tone_start
  do
    let tone ← generate_sine_wave osc freq duration SAMPLE_RATE
    let tone ← apply_envelope tone (3/10) (3/10) SAMPLE_RATE
    let pan := 1/2 + draws (4 * i + 3) * (1 - 1/2)
    pure (tone.map fun x => x * pan)

/-- `generate_texture_loop(duration)`: five random tones, an equal-weight
mix, `apply_fade` with 0.3 s, and normalization to headroom 0.5. -/
def generate_texture_loop (osc : ℚ → ℚ → ℚ) (draws : ℕ → ℚ)
    (duration : ℚ) : Option (List ℚ) := do
  let tones ← optTraverse (texture_tone osc draws duration) (List.range 5)
  let mixed ← mix_waveforms tones none
  let faded ← apply_fade mixed (3/10) SAMPLE_RATE
  normalize_audio faded (1/2)

/-- `generate_breath_loop(duration)`: a 216 Hz carrier amplitude-modulated
by the hand-built three-phase `breath_shape` (linear rise to 0.5 while
`t < 4`, linear fall to 0 while `4 <= t < 10`, zero elsewhere), then
`apply_fade` with 1.0 s and normalization to headroom 0.4. -/
def generate_breath_loop (osc : ℚ → ℚ → ℚ) (duration : ℚ) :
    Option (List ℚ) :=
  let base_freq : ℚ := 216
  let n := pyTrunc ((SAMPLE_RATE : ℚ) * duration)
  if n < 0 then none
  else
    let t := linspaceHalf 0 duration n.toNat
    let breath_shape := List.replicate n.toNat (0 : ℚ)
    let inhale_mask := t.map fun x => decide (x < 4)
    let bs1 := maskAssign breath_shape inhale_mask
      (linspace 0 (1/2) (countTrue inhale_mask))
    let exhale_mask := t.map fun x => decide (4 ≤ x) && decide (x < 10)
    let bs2 := maskAssign bs1 exhale_mask
      (linspace (1/2) 0 (countTrue exhale_mask))
    do
      let carrier ← generate_sine_wave osc base_freq duration SAMPLE_RATE
      let modulated ← npBin (· * ·) carrier bs2
      let faded ← apply_fade modulated 1 SAMPLE_RATE
      normalize_audio faded (2/5)

/-! ### Basic facts about `nth`, `linspace`, and the slice operations -/

theorem nth_eq_getElem (l : List ℚ) (i : ℕ) (h : i < l.length) :
    nth l i = l[i] := by
  simp [nth, List.getD_eq_getElem?_getD, List.getElem?_eq_getElem h]

theorem nth_eq_zero (l : List ℚ) (i : ℕ) (h : l.length ≤ i) :
    nth l i = 0 := by
  simp [nth, List.getD_eq_getElem?_getD, List.getElem?_eq_none h]

theorem nth_append_left (a b : List ℚ) (i : ℕ) (h : i < a.length) :
    nth (a ++ b) i = nth a i := by
  rw [nth_eq_getElem _ _ (by simp; omega), nth_eq_getElem _ _ h]
  exact List.getElem_append_left ..

theorem nth_append_right (a b : List ℚ) (i : ℕ) (h : a.length ≤ i) :
    nth (a ++ b) i = nth b (i - a.length) := by
  by_cases h2 : i < a.length + b.length
  · rw [nth_eq_getElem _ _ (by simp; omega), nth_eq_getElem _ _ (by omega)]
    exact List.getElem_append_right h
  · rw [nth_eq_zero _ _ (by simp; omega), nth_eq_zero _ _ (by omega)]

theorem nth_take (l : List ℚ) (k i : ℕ) (h : i < k) :
    nth (l.take k) i = nth l i := by
  by_cases h2 : i < l.length
  · rw [nth_eq_getElem _ _ (by simp; omega), nth_eq_getElem _ _ h2]
    exact List.getElem_take ..
  · rw [nth_eq_zero _ _ (by simp; omega), nth_eq_zero _ _ (by omega)]

theorem nth_drop (l : List ℚ) (k i : ℕ) :
    nth (l.drop k) i = nth l (k + i) := by
  by_cases h2 : k + i < l.length
  · rw [nth_eq_getElem _ _ (by simp; omega), nth_eq_getElem _ _ h2]
    exact List.getElem_drop ..
  · rw [nth_eq_zero _ _ (by simp; omega), nth_eq_zero _ _ (by omega)]

theorem nth_zipWith (f : ℚ → ℚ → ℚ) (a b : List ℚ) (i : ℕ)
    (hab : a.length = b.length) (hf : f 0 0 = 0) :
    nth (List.zipWith f a b) i = f (nth a i) (nth b i) := by
  by_cases h2 : i < a.length
  · rw [nth_eq_getElem _ _ (by simp; omega), nth_eq_getElem _ _ h2,
      nth_eq_getElem _ _ (by omega)]
    exact List.getElem_zipWith ..
  · rw [nth_eq_zero _ _ (by simp; omega), nth_eq_zero _ _ (by omega),
      nth_eq_zero _ _ (by omega), hf]

theorem nth_map (f : ℚ → ℚ) (l : List ℚ) (i : ℕ) (hf : f 0 = 0) :
    nth (l.map f) i = f (nth l i) := by
  by_cases h2 : i < l.length
  · rw [nth_eq_getElem _ _ (by simp; omega), nth_eq_getElem _ _ h2]
    exact List.getElem_map ..
  · rw [nth_eq_zero _ _ (by simp; omega), nth_eq_zero _ _ (by omega), hf]

theorem nth_replicate (x : ℚ) (n i : ℕ) (h : i < n) :
    nth (List.replicate n x) i = x := by
  rw [nth_eq_getElem _ _ (by simp; omega)]
  exact List.getElem_replicate ..

theorem nth_replicate_zero (n i : ℕ) :
    nth (List.replicate n (0 : ℚ)) i = 0 := by
  by_cases h : i < n
  · exact nth_replicate _ _ _ h
  · exact nth_eq_zero _ _ (by simp; omega)

theorem length_linspace (a b : ℚ) (n : ℕ) : (linspace a b n).length = n := by
  unfold linspace
  by_cases h : n = 1 <;> simp [h]

theorem length_linspaceHalf (a b : ℚ) (n : ℕ) :
    (linspaceHalf a b n).length = n := by
  simp [linspaceHalf]

theorem nth_linspaceHalf (a b : ℚ) (n k : ℕ) (h : k < n) :
    nth (linspaceHalf a b n) k = a + k * (b - a) / n := by
  rw [nth_eq_getElem _ _ (by simp [length_linspaceHalf]; omega)]
  unfold linspaceHalf
  rw [List.getElem_map, List.getElem_range]

theorem linspace_headD_self (a b : ℚ) (n : ℕ) :
    (linspace a b n).headD a = a := by
  unfold linspace
  by_cases h : n = 1
  · simp [h]
  · simp only [h, if_false]
    cases n with
    | zero => rfl
    | succ m =>
      rw [List.range_succ_eq_map]
      simp

theorem mulFront_eq (w v : List ℚ) (k : ℕ) (hv : v.length = (w.take k).length) :
    mulFront w k v = some ((w.take k).zipWith (· * ·) v ++ w.drop k) := by
  simp [mulFront, hv]

theorem mulBack_eq_pos (w v : List ℚ) (k : ℕ) (hk : k ≠ 0)
    (hv : v.length = (w.drop (w.length - k)).length) :
    mulBack w k v =
      some (w.take (w.length - k) ++
        (w.drop (w.length - k)).zipWith (· * ·) v) := by
  simp only [mulBack, hk, if_false, hv, if_true]

theorem mulFront_length (w v r : List ℚ) (k : ℕ)
    (h : mulFront w k v = some r) : r.length = w.length := by
  simp only [mulFront] at h
  split_ifs at h with h1 h2
  · obtain rfl := Option.some.inj h
    simp only [List.length_append, List.length_zipWith, List.length_take,
      List.length_drop] at *
    omega
  · obtain rfl := Option.some.inj h
    simp only [List.length_append, List.length_map, List.length_take,
      List.length_drop]
    omega

theorem mulBack_length (w v r : List ℚ) (k : ℕ)
    (h : mulBack w k v = some r) : r.length = w.length := by
  simp only [mulBack] at h
  split_ifs at h <;> try exact Option.noConfusion h
  all_goals obtain rfl := Option.some.inj h
  all_goals
    simp only [List.length_append, List.length_zipWith, List.length_map,
      List.length_take, List.length_drop] at *
  all_goals omega

theorem setFront_length (w v r : List ℚ) (k : ℕ)
    (h : setFront w k v = some r) : r.length = w.length := by
  simp only [setFront] at h
  split_ifs at h <;> try exact Option.noConfusion h
  all_goals obtain rfl := Option.some.inj h
  all_goals
    simp only [List.length_append, List.length_zipWith, List.length_map,
      List.length_take, List.length_drop] at *
  all_goals omega

theorem setBack_length (w v r : List ℚ) (k : ℕ)
    (h : setBack w k v = some r) : r.length = w.length := by
  simp only [setBack] at h
  split_ifs at h <;> try exact Option.noConfusion h
  all_goals obtain rfl := Option.some.inj h
  all_goals
    simp only [List.length_append, List.length_zipWith, List.length_map,
      List.length_take, List.length_drop] at *
  all_goals omega

theorem addInto_length (t v r : List ℚ)
    (h : addInto t v = some r) : r.length = t.length := by
  simp only [addInto] at h
  split_ifs at h <;> try exact Option.noConfusion h
  all_goals obtain rfl := Option.some.inj h
  all_goals
    simp only [List.length_zipWith, List.length_map] at *
  all_goals omega

theorem npBin_eq_of_length (f : ℚ → ℚ → ℚ) (a b : List ℚ)
    (h : a.length = b.length) : npBin f a b = some (a.zipWith f b) := by
  simp [npBin, h]

theorem apply_fade_length (w r : List ℚ) (fd : ℚ) (sr : ℕ)
    (h : apply_fade w fd sr = some r) : r.length = w.length := by
  simp only [apply_fade, Option.bind_eq_bind] at h
  split_ifs at h with h1
  rw [Option.bind_eq_some] at h
  obtain ⟨w1, hw1, hw2⟩ := h
  rw [mulBack_length w1 _ r _ hw2, mulFront_length w _ w1 _ hw1]

theorem apply_envelope_length (w r : List ℚ) (a rl : ℚ) (sr : ℕ)
    (h : apply_envelope w a rl sr = some r) : r.length = w.length := by
  have key : ∀ e2 : List ℚ, e2.length = w.length →
      npBin (· * ·) w e2 = some r → r.length = w.length := by
    intro e2 h2 hr
    rw [npBin_eq_of_length _ _ _ h2.symm] at hr
    obtain rfl := Option.some.inj hr
    simp only [List.length_zipWith]
    omega
  simp only [apply_envelope, Option.bind_eq_bind] at h
  by_cases ha : 0 < pyTrunc (a * (sr : ℚ))
  · by_cases hb : 0 < pyTrunc (rl * (sr : ℚ))
    · simp only [if_pos ha, if_pos hb, Option.bind_eq_some] at h
      obtain ⟨e1, he1, e2, he2, hr⟩ := h
      have h1 : e1.length = w.length := by
        rw [setFront_length _ _ _ _ he1]
        simp
      exact key e2 (by rw [setBack_length _ _ _ _ he2, h1]) hr
    · simp only [if_pos ha, if_neg hb, Option.pure_def, Option.some_bind,
        Option.bind_eq_some] at h
      obtain ⟨e1, he1, hr⟩ := h
      have h1 : e1.length = w.length := by
        rw [setFront_length _ _ _ _ he1]
        simp
      exact key e1 h1 hr
  · by_cases hb : 0 < pyTrunc (rl * (sr : ℚ))
    · simp only [if_neg ha, if_pos hb, Option.pure_def, Option.some_bind,
        Option.bind_eq_some] at h
      obtain ⟨e2, he2, hr⟩ := h
      exact key e2 (by rw [setBack_length _ _ _ _ he2]; simp) hr
    · simp only [if_neg ha, if_neg hb, Option.pure_def, Option.some_bind] at h
      exact key _ (by simp) h

theorem normalize_length (w r : List ℚ) (h : ℚ)
    (hr : normalize_audio w h = some r) : r.length = w.length := by
  unfold normalize_audio at hr
  split at hr
  · exact absurd hr (by simp)
  · split_ifs at hr
    · obtain rfl := Option.some.inj hr
      simp
    · obtain rfl := Option.some.inj hr
      rfl

theorem maskAssign_length (xs : List ℚ) (mask : List Bool) (vs : List ℚ) :
    (maskAssign xs mask vs).length = xs.length := by
  induction xs generalizing mask vs with
  | nil => cases mask <;> rfl
  | cons x xs ih =>
    cases mask with
    | nil => rfl
    | cons b bs =>
      cases b with
      | false => simp [maskAssign, ih]
      | true => simp [maskAssign, ih]

theorem nth_cons_zero (x : ℚ) (l : List ℚ) : nth (x :: l) 0 = x := rfl

theorem nth_cons_succ (x : ℚ) (l : List ℚ) (k : ℕ) :
    nth (x :: l) (k + 1) = nth l k := rfl

theorem maskAssign_nth_false (xs : List ℚ) (mask : List Bool) (vs : List ℚ)
    (k : ℕ) (hm : mask.getD k false = false) :
    nth (maskAssign xs mask vs) k = nth xs k := by
  induction xs generalizing mask vs k with
  | nil => cases mask <;> rfl
  | cons x xs ih =>
    cases mask with
    | nil => rfl
    | cons b bs =>
      cases b with
      | false =>
        cases k with
        | zero => simp [maskAssign, nth]
        | succ k =>
          simp only [maskAssign, Bool.false_eq_true, if_false, nth_cons_succ]
          exact ih bs vs k (by simpa using hm)
      | true =>
        cases k with
        | zero => simp at hm
        | succ k =>
          simp only [maskAssign, if_true, nth_cons_succ]
          exact ih bs vs.tail k (by simpa using hm)

theorem maskAssign_nth_zero_true (xs : List ℚ) (mask : List Bool)
    (vs : List ℚ) (hx : xs ≠ []) (hm : mask.getD 0 false = true) :
    nth (maskAssign xs mask vs) 0 = vs.headD (nth xs 0) := by
  cases xs with
  | nil => exact absurd rfl hx
  | cons x xs =>
    cases mask with
    | nil => simp at hm
    | cons b bs =>
      have hb : b = true := by simpa using hm
      subst hb
      simp [maskAssign, nth_cons_zero]

theorem pyTrunc_eq_floor (q : ℚ) (h : 0 ≤ q) : pyTrunc q = ⌊q⌋ := if_pos h

theorem apply_fade_nth (w : List ℚ) (fd : ℚ) (sr : ℕ) (fs : ℕ)
    (hfs : pyTrunc (fd * (sr : ℚ)) = (fs : ℤ)) (h0 : 0 < fs)
    (hn : 2 * fs ≤ w.length) :
    ∃ r, apply_fade w fd sr = some r ∧ r.length = w.length ∧
      (∀ i, i < fs → nth r i = nth w i * nth (linspace 0 1 fs) i) ∧
      (∀ i, fs ≤ i → i < w.length - fs → nth r i = nth w i) ∧
      (∀ i, w.length - fs ≤ i → i < w.length →
        nth r i = nth w i * nth (linspace 1 0 fs) (i - (w.length - fs))) := by
  have hfsn : fs ≤ w.length := by omega
  have hin : (linspace 0 1 fs).length = (w.take fs).length := by
    simp [length_linspace]
    omega
  have hA : (List.zipWith (· * ·) (w.take fs) (linspace 0 1 fs)).length = fs := by
    simp [List.length_zipWith, length_linspace]
    omega
  have hw1 : mulFront w fs (linspace 0 1 fs) =
      some ((w.take fs).zipWith (· * ·) (linspace 0 1 fs) ++ w.drop fs) :=
    mulFront_eq _ _ _ hin
  set w1 := (w.take fs).zipWith (· * ·) (linspace 0 1 fs) ++ w.drop fs with hw1def
  have hw1len : w1.length = w.length := by
    simp only [hw1def, List.length_append, List.length_zipWith,
      List.length_take, List.length_drop, length_linspace]
    omega
  have hout : (linspace 1 0 fs).length = (w1.drop (w1.length - fs)).length := by
    simp [length_linspace, hw1len]
    omega
  have hw2 : mulBack w1 fs (linspace 1 0 fs) =
      some (w1.take (w1.length - fs) ++
        (w1.drop (w1.length - fs)).zipWith (· * ·) (linspace 1 0 fs)) :=
    mulBack_eq_pos _ _ _ (by omega) hout
  set r := w1.take (w1.length - fs) ++
    (w1.drop (w1.length - fs)).zipWith (· * ·) (linspace 1 0 fs) with hrdef
  have hfade : apply_fade w fd sr = some r := by
    simp only [apply_fade, hfs, Option.bind_eq_bind]
    rw [if_neg (by omega)]
    rw [show ((fs : ℤ)).toNat = fs from rfl, hw1, Option.some_bind, hw2]
  have hrlen : r.length = w.length := by
    simp only [hrdef, List.length_append, List.length_zipWith,
      List.length_take, List.length_drop, length_linspace, hw1len]
    omega
  have hw1nth_low : ∀ i, i < fs → nth w1 i = nth w i * nth (linspace 0 1 fs) i := by
    intro i hi
    rw [hw1def, nth_append_left _ _ _ (by rw [hA]; omega),
      nth_zipWith _ _ _ _ (by rw [hin]) (by ring), nth_take _ _ _ hi]
  have hw1nth_high : ∀ i, fs ≤ i → nth w1 i = nth w i := by
    intro i hi
    rw [hw1def, nth_append_right _ _ _ (by rw [hA]; omega), hA, nth_drop]
    congr 1
    omega
  have htl : (w1.take (w1.length - fs)).length = w.length - fs := by
    simp [hw1len]
  refine ⟨r, hfade, hrlen, ?_, ?_, ?_⟩
  · intro i hi
    rw [hrdef, nth_append_left _ _ _ (by rw [htl]; omega),
      nth_take _ _ _ (by omega)]
    exact hw1nth_low i hi
  · intro i hi1 hi2
    rw [hrdef, nth_append_left _ _ _ (by rw [htl]; omega),
      nth_take _ _ _ (by omega)]
    exact hw1nth_high i hi1
  · intro i hi1 hi2
    rw [hrdef, nth_append_right _ _ _ (by rw [htl]; omega), htl,
      nth_zipWith _ _ _ _ (by rw [← hout]) (by ring),
      nth_drop, hw1len]
    rw [show w.length - fs + (i - (w.length - fs)) = i by omega]
    rw [hw1nth_high i (by omega)]

theorem apply_fade_zero_none (w : List ℚ) (fd : ℚ) (sr : ℕ) (hw : w ≠ [])
    (hfs : pyTrunc (fd * (sr : ℚ)) = 0) : apply_fade w fd sr = none := by
  have hlen : w.length ≠ 0 := by simpa using hw
  have hfin : mulFront w 0 (linspace 0 1 0) = some w := by
    have : linspace 0 1 0 = [] := rfl
    rw [this]
    simp [mulFront]
  simp only [apply_fade, hfs, Option.bind_eq_bind]
  rw [if_neg (by omega)]
  rw [show ((0 : ℤ)).toNat = 0 from rfl, hfin, Option.some_bind]
  have : linspace 1 0 0 = [] := rfl
  rw [this]
  simp [mulBack, hlen]
  omega

theorem max?_spec (l : List ℚ) (a : ℚ) (h : l.max? = some a) :
    a ∈ l ∧ ∀ b ∈ l, b ≤ a := by
  have anti : Std.Antisymm fun (x1 x2 : ℚ) => x1 ≤ x2 :=
    ⟨fun h1 h2 => le_antisymm h1 h2⟩
  exact (List.max?_eq_some_iff le_refl (fun x y => max_choice x y)
    (fun _ _ _ => max_le_iff)).mp h

theorem foldl_max_map_mul_right (xs : List ℚ) (x c : ℚ) (hc : 0 ≤ c) :
    List.foldl max (x * c) (xs.map fun y => y * c) = List.foldl max x xs * c := by
  induction xs generalizing x with
  | nil => rfl
  | cons y ys ih =>
    simp only [List.map_cons, List.foldl_cons]
    rw [← max_mul_of_nonneg x y hc]
    exact ih (max x y)

theorem max?_map_mul_right (l : List ℚ) (c : ℚ) (hc : 0 ≤ c) :
    (l.map fun x => x * c).max? = l.max?.map fun m => m * c := by
  cases l with
  | nil => rfl
  | cons x xs =>
    show some (List.foldl max (x * c) (xs.map fun y => y * c)) =
      some (List.foldl max x xs * c)
    rw [foldl_max_map_mul_right xs x c hc]

theorem normalize_exists (w : List ℚ) (h : ℚ) (hw : w ≠ []) :
    ∃ r, normalize_audio w h = some r ∧ r.length = w.length ∧
      ∀ k, nth w k = 0 → nth r k = 0 := by
  unfold normalize_audio
  cases hm : (w.map fun x => |x|).max? with
  | none =>
    rw [List.max?_eq_none_iff] at hm
    simp only [List.map_eq_nil_iff] at hm
    exact absurd hm hw
  | some peak =>
    by_cases hp : 0 < peak
    · refine ⟨w.map fun x => x / peak * h, ?_, by simp, ?_⟩
      · show (if 0 < peak then some (w.map fun x => x / peak * h)
          else some w) = _
        rw [if_pos hp]
      · intro k hk
        rw [nth_map _ _ _ (by simp), hk]
        simp
    · refine ⟨w, ?_, rfl, fun k hk => hk⟩
      show (if 0 < peak then some (w.map fun x => x / peak * h)
        else some w) = some w
      rw [if_neg hp]

theorem mix_fold_spec (ps : List (List ℚ × ℚ)) :
    ∀ acc : List ℚ, (∀ p ∈ ps, p.1.length = acc.length) →
    ∃ r, ps.foldlM (fun a p => addInto a (p.1.map fun x => x * p.2)) acc
        = some r ∧
      r.length = acc.length ∧
      ∀ i, nth r i = nth acc i + (ps.map fun p => nth p.1 i * p.2).sum := by
  induction ps with
  | nil =>
    intro acc _
    exact ⟨acc, rfl, rfl, by simp⟩
  | cons p ps ih =>
    intro acc hlen
    have hp : p.1.length = acc.length := hlen p (List.mem_cons_self _ _)
    have hv : (p.1.map fun x => x * p.2).length = acc.length := by
      simp [hp]
    have hadd : addInto acc (p.1.map fun x => x * p.2) =
        some (acc.zipWith (· + ·) (p.1.map fun x => x * p.2)) := by
      simp [addInto, hv]
    set a1 := acc.zipWith (· + ·) (p.1.map fun x => x * p.2) with ha1
    have ha1len : a1.length = acc.length := by
      rw [ha1]
      simp only [List.length_zipWith, hv]
      omega
    obtain ⟨r, hr, hrl, hrv⟩ := ih a1
      (fun q hq => by rw [hlen q (List.mem_cons_of_mem _ hq), ← ha1len])
    refine ⟨r, ?_, by rw [hrl, ha1len], ?_⟩
    · rw [List.foldlM_cons, hadd]
      simpa using hr
    · intro i
      rw [hrv i, List.map_cons, List.sum_cons]
      have hstep : nth a1 i = nth acc i + nth p.1 i * p.2 := by
        rw [ha1, nth_zipWith _ _ _ _ hv.symm (by ring),
          nth_map _ _ _ (by ring)]
      rw [hstep]
      ring

theorem mix_spec (ws : List (List ℚ)) (gs : List ℚ) (n : ℕ)
    (hne : ws ≠ []) (hlen : ∀ v ∈ ws, v.length = n) :
    ∃ r, mix_waveforms ws (some gs) = some r ∧ r.length = n ∧
      ∀ i, nth r i = ((ws.zip gs).map fun p => nth p.1 i * p.2).sum := by
  cases ws with
  | nil => exact absurd rfl hne
  | cons w0 ws' =>
    have h0 : w0.length = n := hlen w0 (List.mem_cons_self _ _)
    obtain ⟨r, hr, hrl, hrv⟩ :=
      mix_fold_spec ((w0 :: ws').zip gs) (List.replicate w0.length 0)
        (fun q hq => by
          rw [List.length_replicate,
            hlen q.1 ((List.of_mem_zip hq).1), h0])
    refine ⟨r, ?_, by rw [hrl, List.length_replicate, h0], ?_⟩
    · show ((w0 :: ws').zip ((some gs).getD _)).foldlM _ _ = some r
      rw [Option.getD_some]
      exact hr
    · intro i
      rw [hrv i, nth_replicate_zero, zero_add]

theorem mix_none_eq (ws : List (List ℚ)) :
    mix_waveforms ws none =
      mix_waveforms ws
        (some (List.replicate ws.length ((1 : ℚ) / (ws.length : ℚ)))) := by
  cases ws <;> rfl

theorem sum_map_zip_replicate (l : List (List ℚ)) (c : ℚ) (i : ℕ) :
    ((l.zip (List.replicate l.length c)).map fun p => nth p.1 i * p.2).sum =
      ((l.map fun v => nth v i).sum) * c := by
  induction l with
  | nil => simp
  | cons x xs ih =>
    simp only [List.length_cons, List.replicate_succ, List.zip_cons_cons,
      List.map_cons, List.sum_cons, ih]
    ring

theorem optTraverse_congr (f g : α → Option β) (l : List α)
    (h : ∀ x ∈ l, f x = g x) : optTraverse f l = optTraverse g l := by
  induction l with
  | nil => rfl
  | cons x xs ih =>
    unfold optTraverse
    rw [h x (List.mem_cons_self _ _), ih fun y hy => h y (List.mem_cons_of_mem _ hy)]

theorem decode_cons2 (b0 b1 : ℕ) (rest : List ℕ) :
    decode_pcm16 (b0 :: b1 :: rest) =
      wrap16 ((b0 : ℤ) + 256 * (b1 : ℤ)) :: decode_pcm16 rest := rfl

theorem decode_int16le (n : ℤ) (rest : List ℕ) :
    decode_pcm16 (int16le n ++ rest) = wrap16 n :: decode_pcm16 rest := by
  unfold int16le
  rw [List.cons_append, List.cons_append, List.nil_append, decode_cons2]
  have hu : (((n % 65536).toNat : ℤ)) = n % 65536 :=
    Int.toNat_of_nonneg (Int.emod_nonneg _ (by norm_num))
  have heq : wrap16 ((((n % 65536).toNat % 256 : ℕ) : ℤ)
      + 256 * (((n % 65536).toNat / 256 : ℕ) : ℤ)) = wrap16 n := by
    unfold wrap16
    push_cast
    omega
  rw [heq]

/-! ### Claim theorems -/

/-- C1, counterexample to the claim as stated: `normalize_audio` on the
(all-zero) empty buffer raises (`np.max` of an empty array) instead of
returning the input, and for the nonzero buffer `[1]` with headroom `-1`
the output peak is `1`, not the headroom `-1`. -/
theorem normalize_counterexample :
    normalize_audio [] (9/10) ≠ some ([] : List ℚ) ∧
    normalize_audio [(1 : ℚ)] (-1) = some [-1] ∧
    (([(-1 : ℚ)].map fun x => |x|).max? = some 1) ∧ (1 : ℚ) ≠ -1 := by
  refine ⟨by decide, ?_, by decide, by norm_num⟩
  have h1 : ([(1 : ℚ)].map fun x => |x|).max? = some 1 := by decide
  unfold normalize_audio
  rw [h1]
  show (if (0 : ℚ) < 1 then some ([(1 : ℚ)].map fun x => x / 1 * (-1))
    else some [1]) = some [-1]
  rw [if_pos (by norm_num)]
  norm_num

/-- C1 (amended): for a buffer with some nonzero sample and a nonnegative
headroom, `normalize_audio` returns a buffer whose maximum absolute sample
value is exactly the headroom; for a nonempty all-zero buffer it returns the
input unchanged; it raises exactly on the empty buffer. -/
theorem normalize_peak_eq_headroom (w : List ℚ) (h : ℚ) :
    ((∃ x ∈ w, x ≠ 0) → 0 ≤ h →
      ∃ r, normalize_audio w h = some r ∧
        (r.map fun x => |x|).max? = some h) ∧
    (w ≠ [] → (∀ x ∈ w, x = 0) → normalize_audio w h = some w) ∧
    (normalize_audio w h = none ↔ w = []) := by
  refine ⟨?_, ?_, ?_⟩
  · rintro ⟨x, hxw, hx0⟩ hh
    cases hm : (w.map fun y => |y|).max? with
    | none =>
      rw [List.max?_eq_none_iff, List.map_eq_nil_iff] at hm
      subst hm
      simp at hxw
    | some p =>
      obtain ⟨hpmem, hple⟩ := max?_spec _ _ hm
      have hxp : |x| ≤ p := hple _ (List.mem_map_of_mem _ hxw)
      have hp : 0 < p := lt_of_lt_of_le (abs_pos.mpr hx0) hxp
      refine ⟨w.map fun y => y / p * h, ?_, ?_⟩
      · unfold normalize_audio
        rw [hm]
        show (if 0 < p then some (w.map fun y => y / p * h) else some w) = _
        rw [if_pos hp]
      · have habs : ∀ y : ℚ, |y / p * h| = |y| * (h / p) := by
          intro y
          rw [abs_mul, abs_div, abs_of_pos hp, abs_of_nonneg hh]
          ring
        have hmm : ((w.map fun y => y / p * h).map fun x => |x|) =
            (w.map fun y => |y|).map fun z => z * (h / p) := by
          rw [List.map_map, List.map_map]
          exact List.map_congr_left fun y _ => habs y
        rw [hmm, max?_map_mul_right _ _ (div_nonneg hh hp.le), hm,
          show Option.map (fun m => m * (h / p)) (some p) = some (p * (h / p))
            from rfl]
        congr 1
        field_simp
  · intro hne hz
    cases hm : (w.map fun y => |y|).max? with
    | none =>
      rw [List.max?_eq_none_iff, List.map_eq_nil_iff] at hm
      exact absurd hm hne
    | some p =>
      obtain ⟨hpmem, _⟩ := max?_spec _ _ hm
      obtain ⟨y, hyw, hyp⟩ := List.mem_map.mp hpmem
      have hp0 : p = 0 := by rw [← hyp, hz y hyw]; simp
      unfold normalize_audio
      rw [hm]
      show (if 0 < p then some (w.map fun z => z / p * h) else some w) = some w
      rw [if_neg (by rw [hp0]; exact lt_irrefl 0)]
  · constructor
    · intro hn
      cases hm : (w.map fun y => |y|).max? with
      | none =>
        rw [List.max?_eq_none_iff, List.map_eq_nil_iff] at hm
        exact hm
      | some p =>
        unfold normalize_audio at hn
        rw [hm] at hn
        by_cases hp : 0 < p
        · rw [show (match some p with
            | none => (none : Option (List ℚ))
            | some peak => if 0 < peak then some (w.map fun x => x / peak * h)
              else some w) =
              (if 0 < p then some (w.map fun x => x / p * h) else some w)
            from rfl, if_pos hp] at hn
          exact absurd hn (by simp)
        · rw [show (match some p with
            | none => (none : Option (List ℚ))
            | some peak => if 0 < peak then some (w.map fun x => x / peak * h)
              else some w) =
              (if 0 < p then some (w.map fun x => x / p * h) else some w)
            from rfl, if_neg hp] at hn
          exact absurd hn (by simp)
    · intro hw
      subst hw
      rfl

/-- C1 witness: the amended theorem applied to the buffer `[1, 2]` with
headroom `1/2`. -/
theorem normalize_peak_eq_headroom_witness :
    ∃ r, normalize_audio [(1 : ℚ), 2] (1/2) = some r ∧
      (r.map fun x => |x|).max? = some (1/2) :=
  (normalize_peak_eq_headroom [(1 : ℚ), 2] (1/2)).1
    ⟨2, by decide, by decide⟩ (by norm_num)

/-- C2, counterexample to the claim as stated: `save_wav` converts with
`astype(np.int16)`, which truncates toward zero and wraps on overflow.  At
sample `0.5` the file holds `16383` while `round(0.5 * 32767) = 16384`; at
sample `2.0` it holds `-2` (wraparound) while the claimed clipping would
give `32767`. -/
theorem save_wav_truncates_and_wraps :
    decode_pcm16 (save_wav_bytes [1/2, 2]) = [16383, -2] ∧
    specRoundClip (1/2) = 16384 ∧ specRoundClip 2 = 32767 ∧
    decode_pcm16 (save_wav_bytes [1/2, 2]) ≠
      [specRoundClip (1/2), specRoundClip 2] := by
  have ha : toInt16 (1/2) = 16383 := by
    unfold toInt16
    rw [show MAX_AMP = (32767 : ℚ) from rfl,
      show pyTrunc ((1/2 : ℚ) * 32767) = 16383 by
        rw [pyTrunc_eq_floor _ (by norm_num)]; norm_num]
    decide
  have hb : toInt16 2 = -2 := by
    unfold toInt16
    rw [show MAX_AMP = (32767 : ℚ) from rfl,
      show pyTrunc ((2 : ℚ) * 32767) = 65534 by
        rw [pyTrunc_eq_floor _ (by norm_num)]; norm_num]
    decide
  have hdec : decode_pcm16 (save_wav_bytes [1/2, 2]) = [16383, -2] := by
    show decode_pcm16 ((([1/2, 2] : List ℚ).map toInt16).flatMap int16le) = _
    rw [List.map_cons, List.map_cons, List.map_nil, ha, hb,
      List.flatMap_cons, List.flatMap_cons, List.flatMap_nil,
      decode_int16le, decode_int16le]
    decide
  have hs1 : specRoundClip (1/2) = 16384 := by
    unfold specRoundClip
    rw [show MAX_AMP = (32767 : ℚ) from rfl, round_eq,
      show ⌊(1/2 : ℚ) * 32767 + 1/2⌋ = 16384 by norm_num]
    norm_num [min_def, max_def]
  have hs2 : specRoundClip 2 = 32767 := by
    unfold specRoundClip
    rw [show MAX_AMP = (32767 : ℚ) from rfl, round_eq,
      show ⌊(2 : ℚ) * 32767 + 1/2⌋ = 65534 by norm_num]
    norm_num [min_def, max_def]
  refine ⟨hdec, hs1, hs2, ?_⟩
  rw [hdec, hs1, hs2]
  decide

/-- C2 (amended): writing a buffer through the PCM serializer and decoding
the data chunk with a standard little-endian 16-bit decoder yields, for
every sample `x`, the integer `trunc(x * 32767)` (truncation toward zero)
reduced modulo `2^16` into the signed range `[-32768, 32767]` — wraparound,
not clipping, and truncation, not rounding. -/
theorem save_wav_roundtrip (w : List ℚ) :
    decode_pcm16 (save_wav_bytes w) =
      w.map fun x => (pyTrunc (x * 32767) + 32768) % 65536 - 32768 := by
  induction w with
  | nil => rfl
  | cons x xs ih =>
    show decode_pcm16 (int16le (toInt16 x) ++ save_wav_bytes xs) = _
    rw [decode_int16le, ih, List.map_cons]
    show wrap16 (toInt16 x) :: _ = (wrap16 (pyTrunc (x * 32767))) :: _
    congr 1
    show wrap16 (wrap16 (pyTrunc (x * MAX_AMP))) = wrap16 (pyTrunc (x * 32767))
    rw [show MAX_AMP = (32767 : ℚ) from rfl]
    unfold wrap16
    omega

theorem nth_map_lt (f : ℚ → ℚ) (l : List ℚ) (k : ℕ) (h : k < l.length) :
    nth (l.map f) k = f (nth l k) := by
  rw [nth_eq_getElem _ _ (by simp; omega), nth_eq_getElem _ _ h]
  exact List.getElem_map ..

/-- C3: for every frequency and positive duration at the fixed sample rate,
the sine and triangle generators return buffers of length exactly
`floor(duration * sample_rate)`, and sample `k` is the oscillator evaluated
at time `k * duration / N`, which lies in the half-open interval
`[0, duration)`. -/
theorem wave_length_and_sampling (osc tri : ℚ → ℚ → ℚ) (freq duration : ℚ)
    (hd : 0 < duration) :
    ∃ bs bt : List ℚ,
      generate_sine_wave osc freq duration SAMPLE_RATE = some bs ∧
      generate_triangle_wave tri freq duration SAMPLE_RATE = some bt ∧
      bs.length = (⌊duration * (SAMPLE_RATE : ℚ)⌋).toNat ∧
      bt.length = bs.length ∧
      (∀ k, k < bs.length →
        nth bs k = osc freq ((k : ℚ) * duration / (bs.length : ℚ)) ∧
        0 ≤ (k : ℚ) * duration / (bs.length : ℚ) ∧
        (k : ℚ) * duration / (bs.length : ℚ) < duration) ∧
      (∀ k, k < bt.length →
        nth bt k = tri freq ((k : ℚ) * duration / (bt.length : ℚ))) := by
  have hsr : ((SAMPLE_RATE : ℕ) : ℚ) = 48000 := by norm_num [SAMPLE_RATE]
  set n := pyTrunc ((SAMPLE_RATE : ℚ) * duration) with hn
  have hn0 : 0 ≤ n := by
    rw [hn, pyTrunc_eq_floor _ (by rw [hsr]; positivity)]
    exact Int.floor_nonneg.mpr (by rw [hsr]; positivity)
  have hflip : (⌊duration * (SAMPLE_RATE : ℚ)⌋).toNat = n.toNat := by
    rw [hn, pyTrunc_eq_floor _ (by rw [hsr]; positivity), mul_comm]
  have hsine : generate_sine_wave osc freq duration SAMPLE_RATE =
      some ((linspaceHalf 0 duration n.toNat).map (osc freq)) := by
    unfold generate_sine_wave
    rw [← hn, if_neg (by omega)]
  have htri : generate_triangle_wave tri freq duration SAMPLE_RATE =
      some ((linspaceHalf 0 duration n.toNat).map (tri freq)) := by
    unfold generate_triangle_wave
    rw [← hn, if_neg (by omega)]
  have hlen : ((linspaceHalf 0 duration n.toNat).map (osc freq)).length
      = n.toNat := by
    simp [length_linspaceHalf]
  have hlen2 : ((linspaceHalf 0 duration n.toNat).map (tri freq)).length
      = n.toNat := by
    simp [length_linspaceHalf]
  have hval : ∀ (g : ℚ → ℚ → ℚ) (k : ℕ), k < n.toNat →
      nth ((linspaceHalf 0 duration n.toNat).map (g freq)) k =
        g freq ((k : ℚ) * duration / (n.toNat : ℚ)) := by
    intro g k hk
    rw [nth_map_lt _ _ _ (by rw [length_linspaceHalf]; omega),
      nth_linspaceHalf _ _ _ _ hk]
    congr 1
    ring
  refine ⟨_, _, hsine, htri, by rw [hlen, hflip], by rw [hlen, hlen2], ?_, ?_⟩
  · intro k hk
    rw [hlen] at hk ⊢
    have hkn : (k : ℚ) < (n.toNat : ℚ) := by exact_mod_cast hk
    have hnpos : (0 : ℚ) < (n.toNat : ℚ) := by
      have : 0 < n.toNat := by omega
      exact_mod_cast this
    refine ⟨hval osc k hk, ?_, ?_⟩
    · positivity
    · rw [div_lt_iff hnpos]
      calc (k : ℚ) * duration < (n.toNat : ℚ) * duration := by
            exact mul_lt_mul_of_pos_right hkn hd
        _ = duration * (n.toNat : ℚ) := by ring
  · intro k hk
    rw [hlen2] at hk ⊢
    exact hval tri k hk

/-- C3 witness: duration `1/16000` at 48000 Hz gives buffers of length
`floor(48000/16000) = 3` from both generators. -/
theorem wave_length_and_sampling_witness :
    ∃ bs bt : List ℚ,
      generate_sine_wave (fun f t => f + t) 1 (1/16000) SAMPLE_RATE
        = some bs ∧
      generate_triangle_wave (fun f t => f * t) 1 (1/16000) SAMPLE_RATE
        = some bt ∧
      bs.length = (⌊(1/16000 : ℚ) * (SAMPLE_RATE : ℚ)⌋).toNat := by
  obtain ⟨bs, bt, h1, h2, h3, -, -, -⟩ :=
    wave_length_and_sampling (fun f t => f + t) (fun f t => f * t) 1
      (1/16000) (by norm_num)
  exact ⟨bs, bt, h1, h2, h3⟩

/-- C4: mixing `N` equal-length buffers with an explicit gain list produces
at every index the gain-weighted sum of the voices, and with the gain list
omitted every voice is weighted exactly `1/N`. -/
theorem mix_weighted_sum (ws : List (List ℚ)) (gs : List ℚ) (n : ℕ)
    (hne : ws ≠ []) (hlen : ∀ v ∈ ws, v.length = n)
    (hg : gs.length = ws.length) :
    (∃ m, mix_waveforms ws (some gs) = some m ∧ m.length = n ∧
      ∀ i, nth m i = ((ws.zip gs).map fun p => nth p.1 i * p.2).sum) ∧
    (∃ m, mix_waveforms ws none = some m ∧ m.length = n ∧
      ∀ i, nth m i =
        ((ws.map fun v => nth v i).sum) * (1 / (ws.length : ℚ))) := by
  constructor
  · exact mix_spec ws gs n hne hlen
  · rw [mix_none_eq]
    obtain ⟨m, hm, hml, hmv⟩ :=
      mix_spec ws (List.replicate ws.length ((1 : ℚ) / (ws.length : ℚ)))
        n hne hlen
    refine ⟨m, hm, hml, fun i => ?_⟩
    rw [hmv i, sum_map_zip_replicate]

/-- C4 witness: mixing `[[1,2],[3,4]]` with gains `[1,10]`. -/
theorem mix_weighted_sum_witness :
    ∃ m, mix_waveforms [[(1 : ℚ), 2], [3, 4]] (some [1, 10]) = some m ∧
      m.length = 2 ∧
      ∀ i, nth m i =
        (([[(1 : ℚ), 2], [3, 4]].zip [(1 : ℚ), 10]).map
          fun p => nth p.1 i * p.2).sum :=
  (mix_weighted_sum [[(1 : ℚ), 2], [3, 4]] [1, 10] 2 (by decide)
    (by decide) (by decide)).1

/-- C5: with `fade_samples = floor(fade_duration * sample_rate)` nonnegative
and `2 * fade_samples ≤ length`, the buffer `apply_fade` returns agrees with
the input at every index outside the first and last `fade_samples`
positions. -/
theorem fade_identity_outside_regions (w r : List ℚ) (fd : ℚ) (sr : ℕ)
    (fs i : ℕ) (hfs : pyTrunc (fd * (sr : ℚ)) = (fs : ℤ))
    (h2 : 2 * fs ≤ w.length) (hr : apply_fade w fd sr = some r)
    (hi1 : fs ≤ i) (hi2 : i < w.length - fs) :
    nth r i = nth w i := by
  rcases Nat.eq_zero_or_pos fs with hz | hpos
  · subst hz
    have hw : w ≠ [] := by
      intro he
      subst he
      simp at hi2
    rw [apply_fade_zero_none w fd sr hw (by exact_mod_cast hfs)] at hr
    exact absurd hr (by simp)
  · obtain ⟨r2, hr2, _, _, hmid, _⟩ := apply_fade_nth w fd sr fs hfs hpos h2
    rw [hr2] at hr
    obtain rfl := Option.some.inj hr
    exact hmid i hi1 hi2

/-- C5 witness: `apply_fade` on `[1,2,3,4]` with one fade sample leaves the
middle samples untouched. -/
theorem fade_identity_outside_regions_witness :
    ∃ r, apply_fade [(1 : ℚ), 2, 3, 4] 1 1 = some r ∧
      nth r 1 = nth [(1 : ℚ), 2, 3, 4] 1 := by
  have hfs : pyTrunc ((1 : ℚ) * ((1 : ℕ) : ℚ)) = ((1 : ℕ) : ℤ) := by
    rw [pyTrunc_eq_floor _ (by norm_num)]
    norm_num
  obtain ⟨r, hr, -, -, -, -⟩ := apply_fade_nth [1, 2, 3, 4] 1 1 1 hfs
    (by norm_num) (by norm_num)
  exact ⟨r, hr, fade_identity_outside_regions [1, 2, 3, 4] r 1 1 1 1 hfs
    (by norm_num) hr (by norm_num) (by norm_num)⟩

/-- C6, counterexample to the claim as stated: `apply_envelope` is not
in-place — the source returns the fresh array `waveform * envelope` and
never writes through its argument, so the caller's buffer keeps its old
samples even though the enveloped result differs. -/
theorem apply_envelope_not_in_place :
    apply_envelope_post [1, 1, 1, 1] 2 2 1 = [1, 1, 1, 1] ∧
    apply_envelope [1, 1, 1, 1] 2 2 1 = some [0, 1, 1, 0] ∧
    ([0, 1, 1, 0] : List ℚ) ≠ [1, 1, 1, 1] := by
  refine ⟨rfl, ?_, by decide⟩
  norm_num [apply_envelope, setFront, setBack, npBin, linspace, pyTrunc,
    List.zipWith, List.range, List.range.loop,
    show Int.toNat 2 = 2 from rfl]

/-- C6 (amended): `apply_fade` does operate in place — after a successful
call the caller's buffer holds exactly the returned faded samples — but
`apply_envelope` does not: the caller's buffer is unchanged and the
enveloped samples exist only in the returned buffer. -/
theorem shaping_aliasing (w r : List ℚ) (fd a rl : ℚ) (sr : ℕ)
    (h : apply_fade w fd sr = some r) :
    apply_fade_post w fd sr = some r ∧ apply_envelope_post w a rl sr = w :=
  ⟨h, rfl⟩

/-- C6 witness: the aliasing statement at the concrete fade of `[1,2,3,4]`. -/
theorem shaping_aliasing_witness :
    apply_fade_post [(1 : ℚ), 2, 3, 4] 1 1 = some [0, 2, 3, 4] ∧
    apply_envelope_post [(1 : ℚ), 2, 3, 4] 2 2 1 = [1, 2, 3, 4] :=
  shaping_aliasing [1, 2, 3, 4] [0, 2, 3, 4] 1 2 2 1
    (by
      norm_num [apply_fade, mulFront, mulBack, linspace, pyTrunc,
        List.zipWith, List.range, List.range.loop,
        show Int.toNat 1 = 1 from rfl])

/-- C10: on a non-empty buffer, a `fade_duration` whose sample count
truncates to zero makes `apply_fade` raise a shape-mismatch error (the
`waveform[-0:]` slice is the whole buffer, which cannot be multiplied by
the empty fade-out ramp) instead of acting as a no-op. -/
theorem fade_zero_shape_error (w : List ℚ) (fd : ℚ) (sr : ℕ) (hw : w ≠ [])
    (hfs : pyTrunc (fd * (sr : ℚ)) = 0) : apply_fade w fd sr = none :=
  apply_fade_zero_none w fd sr hw hfs

/-- C10 witness: `apply_fade([1], 0, 48000)` errors. -/
theorem fade_zero_shape_error_witness :
    apply_fade [(1 : ℚ)] 0 48000 = none :=
  fade_zero_shape_error [1] 0 48000 (by decide)
    (by rw [pyTrunc_eq_floor _ (by norm_num)]; norm_num)

/-- C9: buffer length is invariant under the post-creation operations —
`apply_fade`, `apply_envelope` and `normalize_audio` return a buffer of the
input length whenever they return, and mixing equal-length buffers returns
a buffer of the common length. -/
theorem length_invariance (w : List ℚ) (fd a rl hd : ℚ) (sr : ℕ)
    (ws : List (List ℚ)) (gs : Option (List ℚ)) (n : ℕ) :
    (∀ r, apply_fade w fd sr = some r → r.length = w.length) ∧
    (∀ r, apply_envelope w a rl sr = some r → r.length = w.length) ∧
    (∀ r, normalize_audio w hd = some r → r.length = w.length) ∧
    (ws ≠ [] → (∀ v ∈ ws, v.length = n) →
      ∃ m, mix_waveforms ws gs = some m ∧ m.length = n) := by
  refine ⟨fun r h => apply_fade_length w r fd sr h,
    fun r h => apply_envelope_length w r a rl sr h,
    fun r h => normalize_length w r hd h, fun hne hlen => ?_⟩
  cases gs with
  | some g =>
    obtain ⟨m, hm, hml, -⟩ := mix_spec ws g n hne hlen
    exact ⟨m, hm, hml⟩
  | none =>
    rw [mix_none_eq]
    obtain ⟨m, hm, hml, -⟩ := mix_spec ws _ n hne hlen
    exact ⟨m, hm, hml⟩

/-- C9 witness: lengths are preserved on the concrete buffers `[1,2,3,4]`
(fade and envelope), and mixing `[[1,2],[3,4]]` yields a length-2 buffer. -/
theorem length_invariance_witness :
    ([(0 : ℚ), 2, 3, 4].length = [(1 : ℚ), 2, 3, 4].length) ∧
    ([(0 : ℚ), 2, 3, 0].length = [(1 : ℚ), 2, 3, 4].length) ∧
    ∃ m, mix_waveforms [[(1 : ℚ), 2], [3, 4]] none = some m ∧
      m.length = 2 := by
  obtain ⟨h1, h2, -, h4⟩ :=
    length_invariance [(1 : ℚ), 2, 3, 4] 1 2 2 (1/2) 1
      [[(1 : ℚ), 2], [3, 4]] none 2
  refine ⟨h1 [0, 2, 3, 4] ?_, h2 [0, 2, 3, 0] ?_, h4 (by decide) (by decide)⟩
  · norm_num [apply_fade, mulFront, mulBack, linspace, pyTrunc,
      List.zipWith, List.range, List.range.loop,
      show Int.toNat 1 = 1 from rfl]
  · norm_num [apply_envelope, setFront, setBack, npBin, linspace, pyTrunc,
      List.zipWith, List.range, List.range.loop,
      show Int.toNat 2 = 2 from rfl]

/-- C7: two texture-generator executions that agree on the per-tone
frequency and pan draws produce identical output, whatever the
`tone_duration` and `tone_start` draws are — those two values are computed
but never applied, and each tone is the full-duration sine. -/
theorem texture_ignores_timing_draws (osc : ℚ → ℚ → ℚ) (d1 d2 : ℕ → ℚ)
    (dur : ℚ)
    (hf : ∀ i, i < 5 → d1 (4 * i) = d2 (4 * i))
    (hp : ∀ i, i < 5 → d1 (4 * i + 3) = d2 (4 * i + 3)) :
    generate_texture_loop osc d1 dur = generate_texture_loop osc d2 dur := by
  have htones : optTraverse (texture_tone osc d1 dur) (List.range 5) =
      optTraverse (texture_tone osc d2 dur) (List.range 5) := by
    apply optTraverse_congr
    intro i hi
    have hi5 : i < 5 := List.mem_range.mp hi
    unfold texture_tone
    rw [hf i hi5, hp i hi5]
  unfold generate_texture_loop
  rw [htones]

/-- C7 witness: draw streams that differ exactly in the `tone_duration`
and `tone_start` positions (`k % 4 ∈ {1, 2}`) give the same texture
buffer. -/
theorem texture_ignores_timing_draws_witness :
    generate_texture_loop (fun _ _ => 0) (fun _ => 0) 4 =
      generate_texture_loop (fun _ _ => 0)
        (fun k => if k % 4 = 1 ∨ k % 4 = 2 then 1/2 else 0) 4 :=
  texture_ignores_timing_draws (fun _ _ => 0) (fun _ => 0)
    (fun k => if k % 4 = 1 ∨ k % 4 = 2 then 1/2 else 0) 4
    (by decide) (by decide)

theorem mask_getD (f : ℚ → Bool) (l : List ℚ) (k : ℕ) (h : k < l.length) :
    (l.map f).getD k false = f (nth l k) := by
  have h2 : k < (l.map f).length := by simp; omega
  rw [List.getD_eq_getElem?_getD, List.getElem?_eq_getElem h2]
  simp only [Option.getD_some, List.getElem_map]
  rw [← nth_eq_getElem l k h]

/-- C8: the breath loop at duration 11.0 has sample value `0` at `t = 0`
(the breath shape rises from zero) and at index `floor(10.5 * 48000) =
504000` (the pause phase is silent), for any oscillator. -/
theorem breath_zero_samples (osc : ℚ → ℚ → ℚ) :
    ∃ b, generate_breath_loop osc 11 = some b ∧ b.length = 528000 ∧
      nth b 0 = 0 ∧ nth b 504000 = 0 := by
  have hn : pyTrunc ((SAMPLE_RATE : ℚ) * 11) = 528000 := by
    rw [pyTrunc_eq_floor _ (by norm_num [SAMPLE_RATE])]
    norm_num [SAMPLE_RATE]
  simp only [generate_breath_loop, hn, Option.bind_eq_bind]
  rw [if_neg (by norm_num), show ((528000 : ℤ)).toNat = 528000 from rfl]
  set t := linspaceHalf 0 11 528000 with htdef
  set inhale := t.map fun x => decide (x < 4) with hindef
  set vs1 := linspace 0 (1/2) (countTrue inhale) with hvs1def
  set breath0 := List.replicate 528000 (0 : ℚ) with hbrdef
  set bs1 := maskAssign breath0 inhale vs1 with hbs1def
  set exhale := t.map fun x => decide (4 ≤ x) && decide (x < 10) with hexdef
  set vs2 := linspace (1/2) 0 (countTrue exhale) with hvs2def
  set bs2 := maskAssign bs1 exhale vs2 with hbs2def
  have ht_len : t.length = 528000 := by
    rw [htdef]
    exact length_linspaceHalf 0 11 528000
  have ht0 : nth t 0 = 0 := by
    rw [htdef, nth_linspaceHalf _ _ _ _ (by omega)]
    norm_num
  have ht5 : nth t 504000 = 21/2 := by
    rw [htdef, nth_linspaceHalf _ _ _ _ (by omega)]
    norm_num
  have hin0 : inhale.getD 0 false = true := by
    rw [hindef, mask_getD _ _ _ (by omega), ht0]
    norm_num
  have hin5 : inhale.getD 504000 false = false := by
    rw [hindef, mask_getD _ _ _ (by omega), ht5]
    norm_num
  have hex0 : exhale.getD 0 false = false := by
    rw [hexdef, mask_getD _ _ _ (by omega), ht0]
    norm_num
  have hex5 : exhale.getD 504000 false = false := by
    rw [hexdef, mask_getD _ _ _ (by omega), ht5]
    norm_num
  have hbr_len : breath0.length = 528000 := by
    rw [hbrdef]
    exact List.length_replicate ..
  have hbs1_len : bs1.length = 528000 := by
    rw [hbs1def, maskAssign_length, hbr_len]
  have hbs2_len : bs2.length = 528000 := by
    rw [hbs2def, maskAssign_length, hbs1_len]
  have hbr_ne : breath0 ≠ [] := by
    rw [hbrdef]
    intro he
    have hlen0 := congrArg List.length he
    rw [List.length_replicate] at hlen0
    simp at hlen0
  have hb10 : nth bs1 0 = 0 := by
    rw [hbs1def, maskAssign_nth_zero_true _ _ _ hbr_ne hin0]
    rw [hbrdef, nth_replicate_zero, hvs1def]
    exact linspace_headD_self 0 (1/2) _
  have hb15 : nth bs1 504000 = 0 := by
    rw [hbs1def, maskAssign_nth_false _ _ _ _ hin5, hbrdef,
      nth_replicate_zero]
  have hb20 : nth bs2 0 = 0 := by
    rw [hbs2def, maskAssign_nth_false _ _ _ _ hex0]
    exact hb10
  have hb25 : nth bs2 504000 = 0 := by
    rw [hbs2def, maskAssign_nth_false _ _ _ _ hex5]
    exact hb15
  have hcar : generate_sine_wave osc 216 11 SAMPLE_RATE =
      some ((linspaceHalf 0 11 528000).map (osc 216)) := by
    unfold generate_sine_wave
    rw [hn, if_neg (by norm_num),
      show ((528000 : ℤ)).toNat = 528000 from rfl]
  have hc_len : ((linspaceHalf 0 11 528000).map (osc 216)).length
      = 528000 := by
    simp [length_linspaceHalf]
  have hmod : npBin (· * ·) ((linspaceHalf 0 11 528000).map (osc 216)) bs2 =
      some (((linspaceHalf 0 11 528000).map (osc 216)).zipWith
        (· * ·) bs2) :=
    npBin_eq_of_length _ _ _ (by rw [hc_len, hbs2_len])
  have hmodlen : (((linspaceHalf 0 11 528000).map (osc 216)).zipWith
      (· * ·) bs2).length = 528000 := by
    simp only [List.length_zipWith, hc_len, hbs2_len]
    omega
  have hm0 : nth (((linspaceHalf 0 11 528000).map (osc 216)).zipWith
      (· * ·) bs2) 0 = 0 := by
    rw [nth_zipWith _ _ _ _ (by rw [hc_len, hbs2_len]) (by ring), hb20,
      mul_zero]
  have hm5 : nth (((linspaceHalf 0 11 528000).map (osc 216)).zipWith
      (· * ·) bs2) 504000 = 0 := by
    rw [nth_zipWith _ _ _ _ (by rw [hc_len, hbs2_len]) (by ring), hb25,
      mul_zero]
  have hfs48 : pyTrunc ((1 : ℚ) * (SAMPLE_RATE : ℚ)) = ((48000 : ℕ) : ℤ) := by
    rw [pyTrunc_eq_floor _ (by norm_num [SAMPLE_RATE])]
    norm_num [SAMPLE_RATE]
  obtain ⟨r, hfade, hrlen, hlow, hmid, hhigh⟩ :=
    apply_fade_nth (((linspaceHalf 0 11 528000).map (osc 216)).zipWith
      (· * ·) bs2) 1 SAMPLE_RATE 48000 hfs48 (by norm_num)
      (by rw [hmodlen]; norm_num)
  have hr0 : nth r 0 = 0 := by
    rw [hlow 0 (by norm_num), hm0, zero_mul]
  have hr5 : nth r 504000 = 0 := by
    rw [hhigh 504000 (by rw [hmodlen]; norm_num) (by rw [hmodlen]; norm_num),
      hm5, zero_mul]
  have hrlen2 : r.length = 528000 := by rw [hrlen, hmodlen]
  have hrne : r ≠ [] := by
    intro he
    rw [he] at hrlen2
    simp at hrlen2
  obtain ⟨b, hnorm, hblen, hbzero⟩ := normalize_exists r (2/5) hrne
  refine ⟨b, ?_, by rw [hblen, hrlen2], hbzero 0 hr0, hbzero 504000 hr5⟩
  rw [hcar, Option.some_bind, hmod, Option.some_bind, hfade,
    Option.some_bind, hnorm]
